import Mathlib

/-!
Verification of the react-live-rpc channel-naming function and RPC engine.

The development shallowly embeds the TypeScript sources:
 * `src/get-rpc-channel.ts` (`stableStringify`, `getRpcChannelName`);
 * the `LiveRPC` class (query/mutation executors, invalidation fan-out,
   `validateParams`, `handleRequest`).

JavaScript values reaching `JSON.stringify` are modelled by `JValue`
(numbers as integers, machine floats are out of scope for the claims at
hand); a possibly-`undefined` value is an `Option JValue` with `none`
playing the role of `undefined`.  The external `sha256` digest is an
opaque parameter `hash : String → String`; collision-resistance is taken
as injectivity where a claim needs to distinguish hash outputs.
-/

/-- A JavaScript/JSON value, as consumed by `stableStringify`. -/
inductive JValue where
  | jnull
  | jbool (b : Bool)
  | jnum (n : Int)
  | jstr (s : String)
  | jarr (xs : List JValue)
  | jobj (fields : List (String × JValue))

namespace JValue

/-- Structural induction for `JValue` through the nested lists. -/
def ind {motive : JValue → Prop}
    (hnull : motive .jnull)
    (hbool : ∀ b, motive (.jbool b))
    (hnum : ∀ n, motive (.jnum n))
    (hstr : ∀ s, motive (.jstr s))
    (harr : ∀ xs, (∀ x ∈ xs, motive x) → motive (.jarr xs))
    (hobj : ∀ fs, (∀ kv ∈ fs, motive kv.2) → motive (.jobj fs)) :
    ∀ v, motive v
  | .jnull => hnull
  | .jbool b => hbool b
  | .jnum n => hnum n
  | .jstr s => hstr s
  | .jarr xs => harr xs (fun x hx =>
      ind hnull hbool hnum hstr harr hobj x)
  | .jobj fs => hobj fs (fun kv hkv =>
      ind hnull hbool hnum hstr harr hobj kv.2)
termination_by v => sizeOf v
decreasing_by
  · have := List.sizeOf_lt_of_mem hx
    simp [JValue.jarr.sizeOf_spec]
    omega
  · have h1 := List.sizeOf_lt_of_mem hkv
    obtain ⟨k, v⟩ := kv
    simp at h1 ⊢
    omega

end JValue

/-! ## The serializer (the behaviour of `JSON.stringify` with the replacer)

`stableStringify` calls `JSON.stringify` with the replacer

`(key, value) => typeof value === 'object' && value !== null ?
Object.keys(value).sort().reduce((o, k) => (o[k] = value[k], o), \x7b\x7d) : value`.

The replacer has no `Array.isArray` guard, and per ECMA-262
`SerializeJSONProperty` applies the replacer first and only then checks
`IsArray` on the *replaced* value — so every array, at every nesting level,
is rebuilt as a plain object keyed by its decimal indices and serialized in
object syntax.  We model the emission at the `List Char` level and wrap into
`String` at the end. -/

/-- The character for a decimal digit `d < 10`. -/
def digitChar (d : Nat) : Char := Char.ofNat (48 + d)

/-- Decimal digit characters of a natural number, most significant first. -/
def natChars (n : Nat) : List Char :=
  if n = 0 then ['0'] else ((Nat.digits 10 n).map digitChar).reverse

/-- Decimal characters of an integer: optional minus sign, then digits. -/
def intChars (i : Int) : List Char :=
  if i < 0 then '-' :: natChars i.natAbs else natChars i.natAbs

/-- Lower-case hexadecimal digit character, as `JSON.stringify` emits in
`\u00xx` escapes. -/
def hexDigitChar (n : Nat) : Char :=
  if n < 10 then Char.ofNat (48 + n) else Char.ofNat (87 + n)

/-- JSON escaping of one character (the `Quote` algorithm of
`JSON.stringify`): quote and backslash get two-character escapes, the named
control characters get theirs, remaining control characters get `\u00xx`,
anything else is emitted verbatim. -/
def escChar (c : Char) : List Char :=
  if c = '"' then ['\\', '"']
  else if c = '\\' then ['\\', '\\']
  else if c = Char.ofNat 8 then ['\\', 'b']
  else if c = Char.ofNat 12 then ['\\', 'f']
  else if c = '\n' then ['\\', 'n']
  else if c = Char.ofNat 13 then ['\\', 'r']
  else if c = '\t' then ['\\', 't']
  else if c.toNat < 32 then
    ['\\', 'u', '0', '0', hexDigitChar (c.toNat / 16), hexDigitChar (c.toNat % 16)]
  else [c]

/-- JSON escaping of a character list. -/
def escapeChars : List Char → List Char
  | [] => []
  | c :: cs => escChar c ++ escapeChars cs

/-- The decimal string `ToString(i)` JavaScript uses as an array-index key. -/
def indexKey (i : Nat) : String := String.mk (natChars i)

mutual

/-- JSON serialization of a (replaced) value, as `JSON.stringify` emits it:
no whitespace, object fields in the order of the field list.  Because the
replacer converts every array into its index-keyed plain object before
serialization, an array in serialization position is emitted in object
syntax, `"0":...` through `"n-1":...` between braces, in positional order
(all its keys are array indices, which a JavaScript object enumerates in
ascending numeric order). -/
def serialC : JValue → List Char
  | .jnull => ['n', 'u', 'l', 'l']
  | .jbool true => ['t', 'r', 'u', 'e']
  | .jbool false => ['f', 'a', 'l', 's', 'e']
  | .jnum n => intChars n
  | .jstr s => '"' :: (escapeChars s.data ++ ['"'])
  | .jarr xs => '{' :: (serialCIndexed 0 xs ++ ['}'])
  | .jobj fs => '{' :: (serialCFields fs ++ ['}'])

/-- Comma-separated serialization of an array's elements as the fields of
the index-keyed object the replacer turned the array into (`"i":value`,
with `i` counting up from the given start index). -/
def serialCIndexed : Nat → List JValue → List Char
  | _, [] => []
  | i, [x] => '"' :: (escapeChars (indexKey i).data ++ '"' :: ':' :: serialC x)
  | i, x :: xs =>
      ('"' :: (escapeChars (indexKey i).data ++ '"' :: ':' :: serialC x))
        ++ ',' :: serialCIndexed (i + 1) xs

/-- Comma-separated serialization of object fields (`"key":value`). -/
def serialCFields : List (String × JValue) → List Char
  | [] => []
  | [(k, v)] => '"' :: (escapeChars k.data ++ '"' :: ':' :: serialC v)
  | (k, v) :: fs =>
      ('"' :: (escapeChars k.data ++ '"' :: ':' :: serialC v)) ++ ',' :: serialCFields fs

end

/-- Key comparison used to sort object fields: `Object.keys(value).sort()`
compares the key strings.  Two ordering conventions diverge from JavaScript
here without affecting any identification of values: this `≤` compares code
points where the default `sort()` compares UTF-16 code units (the orders
agree on ASCII keys), and a JavaScript object re-enumerates integer-like
keys in ascending numeric order regardless of insertion.  Either way the
canonical field order is a fixed function of the key/value set, which is
all the channel-name claims consume. -/
def keyLe (p q : String × JValue) : Bool := decide (p.1 ≤ q.1)

/-- Index-keyed fields: the plain object
`Object.keys(arr).sort().reduce(...)` builds from an array.  All its keys
are array-index keys, so the resulting JavaScript object enumerates them in
ascending numeric — i.e. positional — order, whatever order the
lexicographic `sort()` inserted them in. -/
def indexedFields : Nat → List JValue → List (String × JValue)
  | _, [] => []
  | i, x :: xs => (indexKey i, x) :: indexedFields (i + 1) xs

mutual

/-- The conversion performed by `stableStringify`'s replacer at every
nesting level.  The replacer guards only `typeof value === 'object' &&
value !== null` — there is no `Array.isArray` guard — so *every* non-null
object value, arrays included, is rebuilt as a plain object from
`Object.keys(value).sort()`: a genuine object gets its fields re-emitted in
sorted key order, while an array becomes the index-keyed plain object
(which `JSON.stringify` then serializes in object syntax, since `IsArray`
is checked on the replaced value). -/
def canonJ : JValue → JValue
  | .jnull => .jnull
  | .jbool b => .jbool b
  | .jnum n => .jnum n
  | .jstr s => .jstr s
  | .jarr xs => .jobj (indexedFields 0 (canonJList xs))
  | .jobj fs => .jobj ((canonJFields fs).mergeSort keyLe)

/-- Canonicalization of array elements. -/
def canonJList : List JValue → List JValue
  | [] => []
  | x :: xs => canonJ x :: canonJList xs

/-- Canonicalization of object field values (keys untouched). -/
def canonJFields : List (String × JValue) → List (String × JValue)
  | [] => []
  | (k, v) :: fs => (k, canonJ v) :: canonJFields fs

end

/-- `stableStringify(obj)`: `undefined` and `null` short-circuit to the
two-character string of an empty object; anything else is `JSON.stringify`
with the key-sorting replacer. -/
def stableStringify : Option JValue → String
  | none => "\x7b\x7d"
  | some .jnull => "\x7b\x7d"
  | some v => String.mk (serialC (canonJ v))

/-- `params ?? {}`: both `undefined` and `null` are replaced by the empty
object. -/
def nullishCoalesce : Option JValue → JValue
  | none => .jobj []
  | some .jnull => .jobj []
  | some v => v

/-- `getRpcChannelName(query, params)`.  The `sha256(...).toString()` digest
is the opaque parameter `hash`. -/
def getRpcChannelName (hash : String → String) (query : String)
    (params : Option JValue) : String :=
  "query_" ++ query ++ "_" ++ hash (stableStringify (some (nullishCoalesce params)))

/-! ## Deep equality as key/value sets

`DeepEq` is the spec's "deep-equal as key/value sets regardless of object-key
insertion order": objects may permute their (key, value) pairs, arrays are
positional. -/

mutual

/-- Deep equality of values: objects compare as unordered key/value
collections, arrays positionally. -/
inductive DeepEq : JValue → JValue → Prop
  | null : DeepEq .jnull .jnull
  | bool (b : Bool) : DeepEq (.jbool b) (.jbool b)
  | num (n : Int) : DeepEq (.jnum n) (.jnum n)
  | str (s : String) : DeepEq (.jstr s) (.jstr s)
  | arr {xs ys : List JValue} : DeepEqList xs ys → DeepEq (.jarr xs) (.jarr ys)
  | obj {fs gs gs' : List (String × JValue)} :
      gs'.Perm gs → DeepEqFields fs gs' → DeepEq (.jobj fs) (.jobj gs)

/-- Pointwise deep equality of array elements. -/
inductive DeepEqList : List JValue → List JValue → Prop
  | nil : DeepEqList [] []
  | cons {x y : JValue} {xs ys : List JValue} :
      DeepEq x y → DeepEqList xs ys → DeepEqList (x :: xs) (y :: ys)

/-- Pointwise equality of object fields: equal keys, deep-equal values. -/
inductive DeepEqFields : List (String × JValue) → List (String × JValue) → Prop
  | nil : DeepEqFields [] []
  | cons {p q : String × JValue} {ps qs : List (String × JValue)} :
      p.1 = q.1 → DeepEq p.2 q.2 → DeepEqFields ps qs →
      DeepEqFields (p :: ps) (q :: qs)

end

/-- Well-formedness of a value as a JavaScript object graph: every object's
keys are distinct (a JavaScript object cannot carry duplicate keys). -/
inductive WFJ : JValue → Prop
  | null : WFJ .jnull
  | bool (b : Bool) : WFJ (.jbool b)
  | num (n : Int) : WFJ (.jnum n)
  | str (s : String) : WFJ (.jstr s)
  | arr {xs : List JValue} : (∀ x ∈ xs, WFJ x) → WFJ (.jarr xs)
  | obj {fs : List (String × JValue)} :
      (fs.map Prod.fst).Nodup → (∀ kv ∈ fs, WFJ kv.2) → WFJ (.jobj fs)

/-- C9 (for every query name, `undefined`, `null` and the empty object give
the same channel): all three canonicalize to the same two-character string,
hence hash identically. -/
theorem c9_absent_null_empty_same_channel (hash : String → String) (q : String) :
    getRpcChannelName hash q none = getRpcChannelName hash q (some .jnull) ∧
    getRpcChannelName hash q (some .jnull) = getRpcChannelName hash q (some (.jobj [])) ∧
    stableStringify none = "\x7b\x7d" ∧
    stableStringify (some .jnull) = "\x7b\x7d" ∧
    stableStringify (some (.jobj [])) = "\x7b\x7d" := by
  refine ⟨rfl, rfl, rfl, rfl, ?_⟩
  simp [stableStringify, canonJ, canonJFields, serialC, serialCFields, List.mergeSort]

/-! ## C1: key order does not affect the channel name -/

theorem canonJList_eq_map : ∀ xs, canonJList xs = xs.map canonJ
  | [] => rfl
  | x :: xs => by rw [canonJList, List.map_cons, canonJList_eq_map xs]

theorem canonJFields_eq_map :
    ∀ fs, canonJFields fs = fs.map (fun p => (p.1, canonJ p.2))
  | [] => rfl
  | (k, v) :: fs => by rw [canonJFields, List.map_cons, canonJFields_eq_map fs]

theorem keyLe_trans : ∀ a b c : String × JValue,
    keyLe a b = true → keyLe b c = true → keyLe a c = true := by
  intro a b c h1 h2
  simp only [keyLe, decide_eq_true_eq] at h1 h2 ⊢
  exact le_trans h1 h2

theorem keyLe_total : ∀ a b : String × JValue, (keyLe a b || keyLe b a) = true := by
  intro a b
  simp only [keyLe, Bool.or_eq_true, decide_eq_true_eq]
  exact le_total a.1 b.1

/-- Two key-sorted permutations of each other with duplicate-free keys are
equal. -/
theorem sorted_perm_nodupkeys_eq :
    ∀ (l1 l2 : List (String × JValue)), l1.Perm l2 →
      l1.Pairwise (fun p q => keyLe p q = true) →
      l2.Pairwise (fun p q => keyLe p q = true) →
      (l2.map Prod.fst).Nodup → l1 = l2 := by
  intro l1
  induction l1 with
  | nil => intro l2 hp _ _ _; exact (hp.nil_eq).symm ▸ rfl
  | cons p t1 ih =>
    intro l2 hp hs1 hs2 hnd
    cases l2 with
    | nil => exact absurd hp.symm (by simp)
    | cons q t2 =>
      have hpq : p = q := by
        have hpmem : p ∈ q :: t2 := hp.mem_iff.mp (by simp)
        have hqmem : q ∈ p :: t1 := hp.symm.mem_iff.mp (by simp)
        rcases List.mem_cons.mp hpmem with h | hpint2
        · exact h
        · rcases List.mem_cons.mp hqmem with h | hqint1
          · exact h.symm
          · -- p sits in t2 and q in t1: both keys compare both ways
            have h1 : keyLe p q = true := (List.pairwise_cons.mp hs1).1 q hqint1
            have h2 : keyLe q p = true := (List.pairwise_cons.mp hs2).1 p hpint2
            have hkeys : p.1 = q.1 := by
              simp only [keyLe, decide_eq_true_eq] at h1 h2
              exact le_antisymm h1 h2
            -- but q's key may not reappear among t2's keys
            have : q.1 ∈ t2.map Prod.fst := hkeys ▸ List.mem_map_of_mem Prod.fst hpint2
            exact absurd this (List.nodup_cons.mp (by simpa using hnd)).1
      subst hpq
      have htail : t1.Perm t2 := hp.cons_inv
      have := ih t2 htail (List.pairwise_cons.mp hs1).2 (List.pairwise_cons.mp hs2).2
        (List.nodup_cons.mp (by simpa using hnd)).2
      rw [this]

theorem canonJFields_keys :
    ∀ fs : List (String × JValue), (canonJFields fs).map Prod.fst = fs.map Prod.fst := by
  intro fs
  rw [canonJFields_eq_map, List.map_map]
  rfl

/-- Equal key-sorted form for two canonicalized field lists that are
permutations of each other, provided keys are duplicate-free. -/
theorem mergeSort_eq_of_perm_nodupkeys
    (A B : List (String × JValue)) (hperm : A.Perm B)
    (hnd : (B.map Prod.fst).Nodup) :
    A.mergeSort keyLe = B.mergeSort keyLe := by
  apply sorted_perm_nodupkeys_eq
  · exact ((A.mergeSort_perm keyLe).trans hperm).trans (B.mergeSort_perm keyLe).symm
  · exact List.sorted_mergeSort keyLe_trans keyLe_total A
  · exact List.sorted_mergeSort keyLe_trans keyLe_total B
  · have : (B.mergeSort keyLe).Perm B := B.mergeSort_perm keyLe
    exact (this.map Prod.fst).nodup_iff.mpr hnd

theorem WFJ.arr_mem {xs : List JValue} (h : WFJ (.jarr xs)) : ∀ x ∈ xs, WFJ x := by
  cases h with
  | arr h => exact h

theorem WFJ.obj_mem {fs : List (String × JValue)} (h : WFJ (.jobj fs)) :
    ∀ kv ∈ fs, WFJ kv.2 := by
  cases h with
  | obj _ h => exact h

theorem WFJ.obj_nodup {fs : List (String × JValue)} (h : WFJ (.jobj fs)) :
    (fs.map Prod.fst).Nodup := by
  cases h with
  | obj h _ => exact h

theorem canonJList_eq_of_deepEqList :
    ∀ (xs ys : List JValue),
      (∀ x ∈ xs, ∀ w, WFJ x → WFJ w → DeepEq x w → canonJ x = canonJ w) →
      (∀ x ∈ xs, WFJ x) → (∀ y ∈ ys, WFJ y) → DeepEqList xs ys →
      xs.map canonJ = ys.map canonJ := by
  intro xs
  induction xs with
  | nil => intro ys _ _ _ hl; cases hl; rfl
  | cons x txs ihtail =>
    intro ys ih hxs hys hl
    cases hl with
    | cons hxy htail =>
      rename_i y tys
      simp only [List.map_cons]
      rw [ih x (by simp) y (hxs x (by simp)) (hys y (by simp)) hxy,
        ihtail tys (fun a ha w w1 w2 w3 => ih a (by simp [ha]) w w1 w2 w3)
          (fun a ha => hxs a (by simp [ha])) (fun a ha => hys a (by simp [ha])) htail]

theorem canonJFields_eq_of_deepEqFields :
    ∀ (fs gs : List (String × JValue)),
      (∀ kv ∈ fs, ∀ w, WFJ kv.2 → WFJ w → DeepEq kv.2 w → canonJ kv.2 = canonJ w) →
      (∀ kv ∈ fs, WFJ kv.2) → (∀ kv ∈ gs, WFJ kv.2) → DeepEqFields fs gs →
      fs.map (fun p => (p.1, canonJ p.2)) = gs.map (fun p => (p.1, canonJ p.2)) := by
  intro fs
  induction fs with
  | nil => intro gs _ _ _ hf; cases hf; rfl
  | cons p tfs ihtail =>
    intro gs ih hfs hgs hf
    cases hf with
    | cons hk hval htail =>
      rename_i q tqs
      simp only [List.map_cons]
      have h2 : canonJ p.2 = canonJ q.2 :=
        ih p (by simp) q.2 (hfs p (by simp)) (hgs q (by simp)) hval
      rw [hk, h2,
        ihtail tqs (fun a ha w w1 w2 w3 => ih a (by simp [ha]) w w1 w2 w3)
          (fun a ha => hfs a (by simp [ha])) (fun a ha => hgs a (by simp [ha])) htail]

/-- Canonicalization is invariant under deep equality (the replacer's key
sort makes object-key insertion order irrelevant). -/
theorem canonJ_eq_of_deepEq :
    ∀ v, ∀ w, WFJ v → WFJ w → DeepEq v w → canonJ v = canonJ w := by
  intro v
  induction v using JValue.ind with
  | hnull => intro w _ _ h; cases h; rfl
  | hbool b => intro w _ _ h; cases h; rfl
  | hnum n => intro w _ _ h; cases h; rfl
  | hstr s => intro w _ _ h; cases h; rfl
  | harr xs ih =>
    intro w hv hw h
    cases h with
    | arr hl =>
      rename_i ys
      have hxy : canonJList xs = canonJList ys := by
        rw [canonJList_eq_map, canonJList_eq_map]
        exact canonJList_eq_of_deepEqList xs ys ih hv.arr_mem hw.arr_mem hl
      simp only [canonJ, hxy]
  | hobj fs ih =>
    intro w hv hw h
    cases h with
    | obj hperm hf =>
      rename_i gs gs'
      simp only [canonJ]
      congr 1
      have hgsmem : ∀ kv ∈ gs', WFJ kv.2 :=
        fun kv hkv => hw.obj_mem kv (hperm.mem_iff.mp hkv)
      have hstep : canonJFields fs = canonJFields gs' := by
        rw [canonJFields_eq_map, canonJFields_eq_map]
        exact canonJFields_eq_of_deepEqFields fs gs' ih hv.obj_mem hgsmem hf
      rw [hstep]
      apply mergeSort_eq_of_perm_nodupkeys
      · rw [canonJFields_eq_map, canonJFields_eq_map]
        exact hperm.map _
      · rw [canonJFields_keys]
        exact hw.obj_nodup

theorem stableStringify_some_of_ne_null {v : JValue} (h : v ≠ .jnull) :
    stableStringify (some v) = String.mk (serialC (canonJ v)) := by
  cases v with
  | jnull => exact absurd rfl h
  | jbool b => rfl
  | jnum n => rfl
  | jstr s => rfl
  | jarr xs => rfl
  | jobj fs => rfl

theorem nullishCoalesce_some_of_ne_null {v : JValue} (h : v ≠ .jnull) :
    nullishCoalesce (some v) = v := by
  cases v with
  | jnull => exact absurd rfl h
  | jbool b => rfl
  | jnum n => rfl
  | jstr s => rfl
  | jarr xs => rfl
  | jobj fs => rfl

/-- C1: deep-equal parameter values (same key/value sets, any object-key
insertion order) produce the same channel name, for every hash function. -/
theorem c1_channel_name_key_order_invariant
    (hash : String → String) (q : String) (p1 p2 : JValue)
    (h1 : WFJ p1) (h2 : WFJ p2) (heq : DeepEq p1 p2) :
    getRpcChannelName hash q (some p1) = getRpcChannelName hash q (some p2) := by
  unfold getRpcChannelName
  congr 2
  by_cases hn : p1 = JValue.jnull
  · subst hn
    cases heq
    rfl
  · have hn2 : p2 ≠ JValue.jnull := by
      intro hc; subst hc; cases heq; exact hn rfl
    rw [nullishCoalesce_some_of_ne_null hn, nullishCoalesce_some_of_ne_null hn2,
      stableStringify_some_of_ne_null hn, stableStringify_some_of_ne_null hn2,
      canonJ_eq_of_deepEq p1 p2 h1 h2 heq]

/-- Witness for C1 at a concrete pair of key-reordered objects. -/
theorem c1_channel_name_key_order_invariant_witness :
    getRpcChannelName id "getPost" (some (.jobj [("a", .jnum 1), ("b", .jnum 2)]))
      = getRpcChannelName id "getPost" (some (.jobj [("b", .jnum 2), ("a", .jnum 1)])) := by
  apply c1_channel_name_key_order_invariant
  · refine WFJ.obj (by decide) ?_
    intro kv hkv
    simp only [List.mem_cons, List.not_mem_nil, or_false] at hkv
    rcases hkv with rfl | rfl
    · exact WFJ.num 1
    · exact WFJ.num 2
  · refine WFJ.obj (by decide) ?_
    intro kv hkv
    simp only [List.mem_cons, List.not_mem_nil, or_false] at hkv
    rcases hkv with rfl | rfl
    · exact WFJ.num 2
    · exact WFJ.num 1
  · exact @DeepEq.obj _ _ [("a", .jnum 1), ("b", .jnum 2)]
      (List.Perm.swap _ _ _)
      (DeepEqFields.cons rfl (DeepEq.num 1)
        (DeepEqFields.cons rfl (DeepEq.num 2) DeepEqFields.nil))

/-! ## Decimal serialization facts -/

/-- Decimal digit character test (code points 48–57). -/
def isDigitC (c : Char) : Bool := 48 ≤ c.toNat && c.toNat ≤ 57

theorem digitChar_toNat (d : Nat) (h : d < 10) : (digitChar d).toNat = 48 + d := by
  interval_cases d <;> decide

theorem isDigitC_digitChar (d : Nat) (h : d < 10) : isDigitC (digitChar d) = true := by
  interval_cases d <;> decide

theorem natChars_ne_nil (n : Nat) : natChars n ≠ [] := by
  unfold natChars
  split
  · simp
  · simp only [ne_eq, List.reverse_eq_nil_iff, List.map_eq_nil_iff]
    exact Nat.digits_ne_nil_iff_ne_zero.mpr (by assumption)

theorem natChars_digits (n : Nat) : ∀ c ∈ natChars n, isDigitC c = true := by
  intro c hc
  unfold natChars at hc
  split at hc
  · simp only [List.mem_singleton] at hc
    subst hc; decide
  · simp only [List.mem_reverse, List.mem_map] at hc
    obtain ⟨d, hd, rfl⟩ := hc
    exact isDigitC_digitChar d (Nat.digits_lt_base (by norm_num) hd)

/-- Decode a big-endian digit-character run back to the number. -/
def decodeDigits (cs : List Char) : Nat :=
  cs.foldl (fun a c => a * 10 + (c.toNat - 48)) 0

theorem decodeDigits_append_one (L : List Char) (x : Char) :
    decodeDigits (L ++ [x]) = decodeDigits L * 10 + (x.toNat - 48) := by
  unfold decodeDigits
  rw [List.foldl_append]
  simp

theorem decode_digit_list : ∀ (ds : List Nat), (∀ d ∈ ds, d < 10) →
    decodeDigits ((ds.map digitChar).reverse) = Nat.ofDigits 10 ds := by
  intro ds
  induction ds with
  | nil => intro _; simp [decodeDigits, Nat.ofDigits]
  | cons d tds ih =>
    intro h
    rw [List.map_cons, List.reverse_cons, decodeDigits_append_one,
      ih (fun a ha => h a (by simp [ha])), digitChar_toNat d (h d (by simp)),
      Nat.ofDigits_cons]
    omega

theorem decode_natChars (n : Nat) : decodeDigits (natChars n) = n := by
  unfold natChars
  split
  · subst_eqs; decide
  · rw [decode_digit_list _ (fun d hd => Nat.digits_lt_base (by norm_num) hd),
      Nat.ofDigits_digits]

theorem natChars_inj {m n : Nat} (h : natChars m = natChars n) : m = n := by
  have := congrArg decodeDigits h
  rwa [decode_natChars, decode_natChars] at this

/-- A character list that cannot begin with a decimal digit. -/
def NoDigitHead : List Char → Prop
  | [] => True
  | c :: _ => isDigitC c = false

/-- A run of digit characters followed by a non-digit is unambiguous. -/
theorem digitRun_cancel : ∀ (xs ys r s : List Char),
    (∀ c ∈ xs, isDigitC c = true) → (∀ c ∈ ys, isDigitC c = true) →
    NoDigitHead r → NoDigitHead s → xs ++ r = ys ++ s → xs = ys ∧ r = s := by
  intro xs
  induction xs with
  | nil =>
    intro ys r s _ hys hr _ h
    cases ys with
    | nil => simpa using h
    | cons y tys =>
      simp only [List.nil_append, List.cons_append] at h
      rw [h] at hr
      simp only [NoDigitHead] at hr
      exact absurd (hys y (by simp)) (by simp [hr])
  | cons x txs ih =>
    intro ys r s hxs hys hr hs h
    cases ys with
    | nil =>
      simp only [List.cons_append, List.nil_append] at h
      rw [← h] at hs
      simp only [NoDigitHead] at hs
      exact absurd (hxs x (by simp)) (by simp [hs])
    | cons y tys =>
      simp only [List.cons_append, List.cons.injEq] at h
      obtain ⟨rfl, htail⟩ := h
      obtain ⟨h1, h2⟩ := ih tys r s (fun a ha => hxs a (by simp [ha]))
        (fun a ha => hys a (by simp [ha])) hr hs htail
      exact ⟨by rw [h1], h2⟩

theorem natChars_head (n : Nat) :
    ∃ c t, natChars n = c :: t ∧ isDigitC c = true := by
  cases h : natChars n with
  | nil => exact absurd h (natChars_ne_nil n)
  | cons c t =>
    exact ⟨c, t, rfl, natChars_digits n c (h ▸ List.mem_cons_self c t)⟩

/-- Integer decimal serializations are unambiguous before a non-digit
remainder. -/
theorem intChars_cancel {m n : Int} {r s : List Char}
    (hr : NoDigitHead r) (hs : NoDigitHead s)
    (h : intChars m ++ r = intChars n ++ s) : m = n ∧ r = s := by
  unfold intChars at h
  by_cases hm : m < 0 <;> by_cases hn : n < 0
  · rw [if_pos hm, if_pos hn] at h
    simp only [List.cons_append, List.cons.injEq] at h
    obtain ⟨_, htail⟩ := h
    obtain ⟨h1, h2⟩ := digitRun_cancel _ _ _ _ (natChars_digits _) (natChars_digits _)
      hr hs htail
    refine ⟨?_, h2⟩
    have := natChars_inj h1
    omega
  · rw [if_pos hm, if_neg hn] at h
    obtain ⟨c, t, hc, hcd⟩ := natChars_head n.natAbs
    rw [hc] at h
    simp only [List.cons_append, List.cons.injEq] at h
    rw [← h.1] at hcd
    exact absurd hcd (by decide)
  · rw [if_neg hm, if_pos hn] at h
    obtain ⟨c, t, hc, hcd⟩ := natChars_head m.natAbs
    rw [hc] at h
    simp only [List.cons_append, List.cons.injEq] at h
    rw [h.1] at hcd
    exact absurd hcd (by decide)
  · rw [if_neg hm, if_neg hn] at h
    obtain ⟨h1, h2⟩ := digitRun_cancel _ _ _ _ (natChars_digits _) (natChars_digits _)
      hr hs h
    refine ⟨?_, h2⟩
    have := natChars_inj h1
    omega

/-! ## String-escape facts -/

/-- Hexadecimal digit value of a character (lower-case letters), partial
inverse of `hexDigitChar`. -/
def hexValC (c : Char) : Option Nat :=
  if 48 ≤ c.toNat ∧ c.toNat ≤ 57 then some (c.toNat - 48)
  else if 97 ≤ c.toNat ∧ c.toNat ≤ 102 then some (c.toNat - 87)
  else none

theorem hexValC_hexDigitChar : ∀ d : Fin 16, hexValC (hexDigitChar d.val) = some d.val := by
  decide

/-- Inverse of a two-character escape's second character. -/
def unescTok : Char → Option Char
  | '"' => some '"'
  | '\\' => some '\\'
  | 'b' => some (Char.ofNat 8)
  | 'f' => some (Char.ofNat 12)
  | 'n' => some '\n'
  | 'r' => some (Char.ofNat 13)
  | 't' => some '\t'
  | _ => none

/-- Undo a JSON escape run up to (and consuming) the first unescaped quote,
returning the unescaped content and the remainder. -/
def unescapeRun : List Char → Option (List Char × List Char)
  | '"' :: rest => some ([], rest)
  | '\\' :: 'u' :: h1 :: h2 :: h3 :: h4 :: rest =>
      (match hexValC h1, hexValC h2, hexValC h3, hexValC h4 with
       | some a, some b, some c0, some d0 =>
         (match unescapeRun rest with
          | some (cs, r) => some (Char.ofNat (((a * 16 + b) * 16 + c0) * 16 + d0) :: cs, r)
          | none => none)
       | _, _, _, _ => none)
  | '\\' :: e :: rest =>
      (match unescTok e with
       | some ch =>
         (match unescapeRun rest with
          | some (cs, r) => some (ch :: cs, r)
          | none => none)
       | none => none)
  | c :: rest =>
      (match unescapeRun rest with
       | some (cs, r) => some (c :: cs, r)
       | none => none)
  | [] => none

theorem unescapeRun_escChar (c : Char) (rest : List Char) :
    unescapeRun (escChar c ++ rest)
      = (match unescapeRun rest with
         | some (cs, r) => some (c :: cs, r)
         | none => none) := by
  unfold escChar
  split_ifs with h1 h2 h3 h4 h5 h6 h7 h8
  · subst h1; rfl
  · subst h2; rfl
  · subst h3; rfl
  · subst h4; rfl
  · subst h5; rfl
  · subst h6; rfl
  · subst h7; rfl
  · have hd : hexValC (hexDigitChar (c.toNat / 16)) = some (c.toNat / 16) :=
      hexValC_hexDigitChar ⟨c.toNat / 16, by omega⟩
    have hm : hexValC (hexDigitChar (c.toNat % 16)) = some (c.toNat % 16) :=
      hexValC_hexDigitChar ⟨c.toNat % 16, by omega⟩
    have harith : ((0 * 16 + 0) * 16 + c.toNat / 16) * 16 + c.toNat % 16 = c.toNat := by
      omega
    have h0 : hexValC '0' = some 0 := rfl
    simp only [List.cons_append, List.nil_append, List.append_eq, unescapeRun, h0, hd, hm,
      harith, Char.ofNat_toNat]
  · simp only [List.cons_append, List.nil_append]
    rw [unescapeRun.eq_def]
    simp [h1, h2]

theorem unescape_escape : ∀ (cs rest : List Char),
    unescapeRun (escapeChars cs ++ '"' :: rest) = some (cs, rest) := by
  intro cs
  induction cs with
  | nil => intro rest; rfl
  | cons c tcs ih =>
    intro rest
    rw [escapeChars, List.append_assoc, unescapeRun_escChar, ih rest]

/-- JSON escape runs terminated by an unescaped quote are unambiguous. -/
theorem escape_cancel {a b t u : List Char}
    (h : escapeChars a ++ '"' :: t = escapeChars b ++ '"' :: u) : a = b ∧ t = u := by
  have := congrArg unescapeRun h
  rw [unescape_escape, unescape_escape] at this
  simp only [Option.some.injEq, Prod.mk.injEq] at this
  exact this

/-! ## First-character discrimination between serialized forms -/

/-- Class of a character as the potential first character of a serialized
value: `n`/`t`/`f` (null, true, false), sign-or-digit (numbers), quote
(strings), brackets (arrays, objects), or none of these. -/
def charKind (c : Char) : Nat :=
  if c = 'n' then 0
  else if c = 't' then 1
  else if c = 'f' then 2
  else if c = '-' ∨ isDigitC c = true then 3
  else if c = '"' then 4
  else if c = '[' then 5
  else if c = '{' then 6
  else 7

/-- Class of a value's first serialized character, by constructor.  An
array serializes as its index-keyed object, so it opens with a brace and
shares the object class. -/
def headKind : JValue → Nat
  | .jnull => 0
  | .jbool true => 1
  | .jbool false => 2
  | .jnum _ => 3
  | .jstr _ => 4
  | .jarr _ => 6
  | .jobj _ => 6

theorem headKind_le (v : JValue) : headKind v ≤ 6 := by
  cases v with
  | jbool b => cases b <;> simp [headKind]
  | jnull => simp [headKind]
  | jnum n => simp [headKind]
  | jstr s => simp [headKind]
  | jarr xs => simp [headKind]
  | jobj fs => simp [headKind]

theorem charKind_digit {c : Char} (h : isDigitC c = true) : charKind c = 3 := by
  have hn : c ≠ 'n' := by intro e; subst e; exact absurd h (by decide)
  have ht : c ≠ 't' := by intro e; subst e; exact absurd h (by decide)
  have hf : c ≠ 'f' := by intro e; subst e; exact absurd h (by decide)
  unfold charKind
  rw [if_neg hn, if_neg ht, if_neg hf, if_pos (Or.inr h)]

/-- Every serialized value starts with a character of its constructor's
class. -/
theorem serial_head (v : JValue) :
    ∃ c t, serialC v = c :: t ∧ charKind c = headKind v := by
  cases v with
  | jnull => exact ⟨'n', _, rfl, by decide⟩
  | jbool b =>
    cases b with
    | true => exact ⟨'t', _, rfl, by decide⟩
    | false => exact ⟨'f', _, rfl, by decide⟩
  | jnum n =>
    rw [show serialC (.jnum n) = intChars n from rfl]
    unfold intChars
    split
    · exact ⟨'-', _, rfl, rfl⟩
    · obtain ⟨c, t, hct, hcd⟩ := natChars_head n.natAbs
      exact ⟨c, t, hct, by rw [charKind_digit hcd]; rfl⟩
  | jstr s => exact ⟨'"', _, rfl, rfl⟩
  | jarr xs => exact ⟨'{', _, rfl, rfl⟩
  | jobj fs => exact ⟨'{', _, rfl, rfl⟩

/-- Parallel serializations force the same constructor class. -/
theorem headKind_eq_of_append {v w : JValue} {r s : List Char}
    (h : serialC v ++ r = serialC w ++ s) : headKind v = headKind w := by
  obtain ⟨c, t, hv, hkc⟩ := serial_head v
  obtain ⟨d, u, hw, hkd⟩ := serial_head w
  rw [hv, hw] at h
  simp only [List.cons_append, List.cons.injEq] at h
  rw [← hkc, ← hkd, h.1]

/-- A remainder that can legally follow a serialized value inside a larger
serialization: empty, or starting with a separator or closing bracket. -/
def Follows : List Char → Prop
  | [] => True
  | c :: _ => c = ',' ∨ c = ']' ∨ c = '}'

theorem follows_noDigitHead {r : List Char} (h : Follows r) : NoDigitHead r := by
  cases r with
  | nil => trivial
  | cons c t =>
    simp only [Follows] at h
    simp only [NoDigitHead]
    rcases h with rfl | rfl | rfl <;> decide

/-! ## Serialization is unambiguous -/

/-- Values the replacer can output: no `.jarr` anywhere (the replacer has
rewritten every array into its index-keyed plain object by the time
serialization looks at it). -/
inductive ArrayFree : JValue → Prop
  | null : ArrayFree .jnull
  | bool (b : Bool) : ArrayFree (.jbool b)
  | num (n : Int) : ArrayFree (.jnum n)
  | str (s : String) : ArrayFree (.jstr s)
  | obj {fs : List (String × JValue)} :
      (∀ kv ∈ fs, ArrayFree kv.2) → ArrayFree (.jobj fs)

theorem ArrayFree.fields_mem {fs : List (String × JValue)} (h : ArrayFree (.jobj fs)) :
    ∀ kv ∈ fs, ArrayFree kv.2 := by
  cases h with
  | obj h => exact h

theorem mem_indexedFields :
    ∀ (i : Nat) (l : List JValue) (kv : String × JValue),
      kv ∈ indexedFields i l → kv.2 ∈ l := by
  intro i l
  induction l generalizing i with
  | nil => intro kv h; cases h
  | cons x xs ih =>
    intro kv h
    rw [indexedFields] at h
    rcases List.mem_cons.mp h with rfl | h2
    · simp
    · exact List.mem_cons_of_mem x (ih (i + 1) kv h2)

/-- Everything the replacer outputs is array-free. -/
theorem canonJ_arrayFree : ∀ v, ArrayFree (canonJ v) := by
  intro v
  induction v using JValue.ind with
  | hnull => exact ArrayFree.null
  | hbool b => exact ArrayFree.bool b
  | hnum n => exact ArrayFree.num n
  | hstr s => exact ArrayFree.str s
  | harr xs ih =>
    rw [canonJ]
    refine ArrayFree.obj ?_
    intro kv hkv
    have hmem : kv.2 ∈ canonJList xs := mem_indexedFields 0 _ kv hkv
    rw [canonJList_eq_map] at hmem
    obtain ⟨x, hx, hxe⟩ := List.mem_map.mp hmem
    rw [← hxe]
    exact ih x hx
  | hobj fs ih =>
    rw [canonJ]
    refine ArrayFree.obj ?_
    intro kv hkv
    have hmem : kv ∈ canonJFields fs :=
      ((canonJFields fs).mergeSort_perm keyLe).mem_iff.mp hkv
    rw [canonJFields_eq_map] at hmem
    obtain ⟨p, hp, hpe⟩ := List.mem_map.mp hmem
    have hsnd : kv.2 = canonJ p.2 := by rw [← hpe]
    rw [hsnd]
    exact ih p hp


theorem serialFields_cancel :
    ∀ (fs : List (String × JValue)),
      (∀ kv ∈ fs, ∀ w r' s', ArrayFree w → Follows r' → Follows s' →
        serialC kv.2 ++ r' = serialC w ++ s' → kv.2 = w ∧ r' = s') →
      ∀ (gs : List (String × JValue)), (∀ kv ∈ gs, ArrayFree kv.2) →
      ∀ (r s : List Char),
        serialCFields fs ++ '}' :: r = serialCFields gs ++ '}' :: s → fs = gs ∧ r = s := by
  intro fs
  induction fs with
  | nil =>
    intro _ gs _ r s h
    cases gs with
    | nil =>
      simp only [serialCFields, List.nil_append, List.cons.injEq] at h
      exact ⟨rfl, h.2⟩
    | cons q tqs =>
      exfalso
      obtain ⟨k2, v2⟩ := q
      have hshape : ∃ rest, serialCFields ((k2, v2) :: tqs) = '"' :: rest := by
        cases tqs with
        | nil => exact ⟨_, rfl⟩
        | cons q2 qs2 => exact ⟨_, rfl⟩
      obtain ⟨rest, hrest⟩ := hshape
      rw [hrest] at h
      simp only [serialCFields, List.nil_append, List.cons_append, List.cons.injEq] at h
      exact absurd h.1 (by decide)
  | cons p tfs ih =>
    intro ihm gs hgs r s h
    obtain ⟨k, v⟩ := p
    cases gs with
    | nil =>
      exfalso
      have hshape : ∃ rest, serialCFields ((k, v) :: tfs) = '"' :: rest := by
        cases tfs with
        | nil => exact ⟨_, rfl⟩
        | cons q2 qs2 => exact ⟨_, rfl⟩
      obtain ⟨rest, hrest⟩ := hshape
      rw [hrest] at h
      simp only [serialCFields, List.nil_append, List.cons_append, List.cons.injEq] at h
      exact absurd h.1 (by decide)
    | cons q tqs =>
      obtain ⟨k2, v2⟩ := q
      cases tfs with
      | nil =>
        cases tqs with
        | nil =>
          simp only [serialCFields, List.cons_append, List.append_assoc,
            List.cons.injEq, true_and] at h
          obtain ⟨hkk, htail⟩ := escape_cancel h
          simp only [List.cons.injEq, true_and] at htail
          obtain ⟨hv, htail2⟩ := ihm (k, v) (by simp) v2 ('}' :: r) ('}' :: s)
            (hgs (k2, v2) (by simp)) (by simp [Follows]) (by simp [Follows]) htail
          simp only [List.cons.injEq, true_and] at htail2
          have hv2 : v = v2 := hv
          exact ⟨by rw [String.ext hkk, hv2], htail2⟩
        | cons q2 qs2 =>
          exfalso
          simp only [serialCFields, List.cons_append, List.append_assoc,
            List.cons.injEq, true_and] at h
          obtain ⟨hkk, htail⟩ := escape_cancel h
          simp only [List.cons.injEq, true_and] at htail
          obtain ⟨_, htail2⟩ := ihm (k, v) (by simp) v2 ('}' :: r)
            (',' :: (serialCFields (q2 :: qs2) ++ '}' :: s))
            (hgs (k2, v2) (by simp)) (by simp [Follows]) (by simp [Follows]) htail
          simp only [List.cons.injEq] at htail2
          exact absurd htail2.1 (by decide)
      | cons p2 ps2 =>
        cases tqs with
        | nil =>
          exfalso
          simp only [serialCFields, List.cons_append, List.append_assoc,
            List.cons.injEq, true_and] at h
          obtain ⟨hkk, htail⟩ := escape_cancel h
          simp only [List.cons.injEq, true_and] at htail
          obtain ⟨_, htail2⟩ := ihm (k, v) (by simp) v2
            (',' :: (serialCFields (p2 :: ps2) ++ '}' :: r)) ('}' :: s)
            (hgs (k2, v2) (by simp)) (by simp [Follows]) (by simp [Follows]) htail
          simp only [List.cons.injEq] at htail2
          exact absurd htail2.1 (by decide)
        | cons q2 qs2 =>
          simp only [serialCFields, List.cons_append, List.append_assoc,
            List.cons.injEq, true_and] at h
          obtain ⟨hkk, htail⟩ := escape_cancel h
          simp only [List.cons.injEq, true_and] at htail
          obtain ⟨hv, htail2⟩ := ihm (k, v) (by simp) v2
            (',' :: (serialCFields (p2 :: ps2) ++ '}' :: r))
            (',' :: (serialCFields (q2 :: qs2) ++ '}' :: s))
            (hgs (k2, v2) (by simp)) (by simp [Follows]) (by simp [Follows]) htail
          simp only [List.cons.injEq, true_and] at htail2
          obtain ⟨hts, hrs⟩ := ih (fun a ha w r' s' haw' hr' hs' hh =>
            ihm a (by simp [ha]) w r' s' haw' hr' hs' hh) (q2 :: qs2)
            (fun a ha => hgs a (by simp [ha])) r s htail2
          have hv2 : v = v2 := hv
          exact ⟨by rw [String.ext hkk, hv2, hts], hrs⟩

/-- Unambiguity of the serializer on the replacer's image: a serialized
array-free value followed by a legal remainder determines both.  (On
arbitrary values the emission is *not* injective — the array conversion
collides an array with its index-keyed object — which is exactly why the
hypotheses restrict to the replaced values `stableStringify` actually
serializes.) -/
theorem serial_cancel :
    ∀ v w (r s : List Char), ArrayFree v → ArrayFree w → Follows r → Follows s →
      serialC v ++ r = serialC w ++ s → v = w ∧ r = s := by
  intro v
  induction v using JValue.ind with
  | hnull =>
    intro w r s _ haw _ _ h
    have hk := headKind_eq_of_append h
    cases w with
    | jnull =>
      simp only [serialC, List.cons_append, List.nil_append, List.cons.injEq,
        true_and] at h
      exact ⟨rfl, h⟩
    | jbool b => cases b <;> simp [headKind] at hk
    | jnum n => simp [headKind] at hk
    | jstr s => simp [headKind] at hk
    | jarr xs => simp [headKind] at hk
    | jobj fs => simp [headKind] at hk
  | hbool b =>
    intro w r s _ haw _ _ h
    have hk := headKind_eq_of_append h
    cases w with
    | jbool b2 =>
      cases b <;> cases b2
      · simp only [serialC, List.cons_append, List.nil_append, List.cons.injEq,
          true_and] at h
        exact ⟨rfl, h⟩
      · exact absurd hk (by decide)
      · exact absurd hk (by decide)
      · simp only [serialC, List.cons_append, List.nil_append, List.cons.injEq,
          true_and] at h
        exact ⟨rfl, h⟩
    | jnull => cases b <;> simp [headKind] at hk
    | jnum n => cases b <;> simp [headKind] at hk
    | jstr s => cases b <;> simp [headKind] at hk
    | jarr xs => cases b <;> simp [headKind] at hk
    | jobj fs => cases b <;> simp [headKind] at hk
  | hnum n =>
    intro w r s _ haw hr hs h
    have hk := headKind_eq_of_append h
    cases w with
    | jnum m =>
      have := intChars_cancel (follows_noDigitHead hr) (follows_noDigitHead hs) h
      exact ⟨by rw [this.1], this.2⟩
    | jnull => simp [headKind] at hk
    | jbool b => cases b <;> simp [headKind] at hk
    | jstr s => simp [headKind] at hk
    | jarr xs => simp [headKind] at hk
    | jobj fs => simp [headKind] at hk
  | hstr a =>
    intro w r s _ haw _ _ h
    have hk := headKind_eq_of_append h
    cases w with
    | jstr b =>
      simp only [serialC, List.cons_append, List.append_assoc, List.singleton_append,
        List.cons.injEq, true_and] at h
      obtain ⟨hab, hrs⟩ := escape_cancel h
      exact ⟨by rw [String.ext hab], hrs⟩
    | jnull => simp [headKind] at hk
    | jbool b => cases b <;> simp [headKind] at hk
    | jnum m => simp [headKind] at hk
    | jarr xs => simp [headKind] at hk
    | jobj fs => simp [headKind] at hk
  | harr xs ih =>
    intro w r s hav _ _ _ _
    cases hav
  | hobj fs ih =>
    intro w r s hav haw _ _ h
    have hk := headKind_eq_of_append h
    cases w with
    | jobj gs =>
      simp only [serialC, List.cons_append, List.append_assoc, List.singleton_append,
        List.cons.injEq, true_and] at h
      obtain ⟨hfg, hrs⟩ := serialFields_cancel fs
        (fun kv hkv w' r' s' haw' hr' hs' hh =>
          ih kv hkv w' r' s' (hav.fields_mem kv hkv) haw' hr' hs' hh)
        gs haw.fields_mem r s h
      exact ⟨by rw [hfg], hrs⟩
    | jnull => simp [headKind] at hk
    | jbool b => cases b <;> simp [headKind] at hk
    | jnum m => simp [headKind] at hk
    | jstr s => simp [headKind] at hk
    | jarr ys => cases haw

/-- The serializer is injective on the replacer's image. -/
theorem serialC_inj {v w : JValue} (hv : ArrayFree v) (hw : ArrayFree w)
    (h : serialC v = serialC w) : v = w := by
  have := serial_cancel v w [] [] hv hw trivial trivial (by simpa using h)
  exact this.1


/-! ## C7: array element order and the channel name -/

theorem stringify_eq_canon_eq {v w : JValue} (hv : v ≠ .jnull) (hw : w ≠ .jnull)
    (h : stableStringify (some v) = stableStringify (some w)) : canonJ v = canonJ w := by
  rw [stableStringify_some_of_ne_null hv, stableStringify_some_of_ne_null hw] at h
  exact serialC_inj (canonJ_arrayFree v) (canonJ_arrayFree w) (congrArg String.data h)

theorem channel_eq_imp_stringify_eq {hash : String → String}
    (hinj : Function.Injective hash) {q : String} {p1 p2 : Option JValue}
    (h : getRpcChannelName hash q p1 = getRpcChannelName hash q p2) :
    stableStringify (some (nullishCoalesce p1)) = stableStringify (some (nullishCoalesce p2)) := by
  unfold getRpcChannelName at h
  have hdata := congrArg String.data h
  simp only [String.data_append] at hdata
  exact hinj (String.ext (List.append_cancel_left hdata))

theorem indexedFields_inj :
    ∀ (l1 : List JValue) (i : Nat) (l2 : List JValue),
      indexedFields i l1 = indexedFields i l2 → l1 = l2 := by
  intro l1
  induction l1 with
  | nil =>
    intro i l2 h
    cases l2 with
    | nil => rfl
    | cons y tys => simp [indexedFields] at h
  | cons x txs ih =>
    intro i l2 h
    cases l2 with
    | nil => simp [indexedFields] at h
    | cons y tys =>
      rw [indexedFields, indexedFields] at h
      injection h with h1 h2
      injection h1 with _ hxy
      rw [hxy, ih (i + 1) tys h2]

theorem map_canonJ_get_eq :
    ∀ (l1 l2 : List JValue), l1.map canonJ = l2.map canonJ →
      ∀ i (h1 : i < l1.length) (h2 : i < l2.length),
        canonJ (l1.get ⟨i, h1⟩) = canonJ (l2.get ⟨i, h2⟩) := by
  intro l1
  induction l1 with
  | nil => intro l2 _ i h1 _; exact absurd h1 (by simp)
  | cons x txs ih =>
    intro l2 h i h1 h2
    cases l2 with
    | nil => exact absurd h2 (by simp)
    | cons y tys =>
      simp only [List.map_cons, List.cons.injEq] at h
      cases i with
      | zero => exact h.1
      | succ n => exact ih tys h.2 n (by simpa using h1) (by simpa using h2)

theorem swap_perm (A B C : List JValue) (a b : JValue) :
    (A ++ b :: (B ++ a :: C)).Perm (A ++ a :: (B ++ b :: C)) := by
  apply List.Perm.append_left
  have s1 : (B ++ a :: C).Perm (a :: (B ++ C)) := List.perm_middle
  have s2 : (b :: (B ++ a :: C)).Perm (b :: a :: (B ++ C)) := s1.cons b
  have s3 : (b :: a :: (B ++ C)).Perm (a :: b :: (B ++ C)) := List.Perm.swap a b (B ++ C)
  have s4 : (b :: (B ++ C)).Perm (B ++ b :: C) := List.perm_middle.symm
  exact s2.trans (s3.trans (s4.cons a))

theorem swap_decomp (xs : List JValue) (i j : Nat) (hij : i < j) (hj : j < xs.length)
    (hi : i < xs.length) :
    xs = xs.take i ++ xs.get ⟨i, hi⟩ ::
      ((xs.drop (i + 1)).take (j - (i + 1)) ++ xs.get ⟨j, hj⟩ :: xs.drop (j + 1)) := by
  have h1 : xs.take i ++ xs.drop i = xs := List.take_append_drop i xs
  have h2 : xs.drop i = xs.get ⟨i, hi⟩ :: xs.drop (i + 1) := by
    rw [List.get_eq_getElem]
    exact List.drop_eq_getElem_cons hi
  have h3 : (xs.drop (i + 1)).take (j - (i + 1)) ++ (xs.drop (i + 1)).drop (j - (i + 1))
      = xs.drop (i + 1) := List.take_append_drop _ _
  have h4 : (xs.drop (i + 1)).drop (j - (i + 1)) = xs.drop j := by
    rw [List.drop_drop]
    congr 1
    omega
  have h5 : xs.drop j = xs.get ⟨j, hj⟩ :: xs.drop (j + 1) := by
    rw [List.get_eq_getElem]
    exact List.drop_eq_getElem_cons hj
  conv_lhs => rw [← h1, h2, ← h3, h4, h5]

/-- Swapping two elements whose canonical forms differ yields a permutation
of the array whose canonical form differs from the original's (the
replacer's index keys record positions, so the canonical object detects the
move). -/
theorem exists_swapped_perm (xs : List JValue) (i j : Nat)
    (hi : i < xs.length) (hj : j < xs.length) (hij : i < j)
    (hne : canonJ (xs.get ⟨i, hi⟩) ≠ canonJ (xs.get ⟨j, hj⟩)) :
    ∃ ys, ys.Perm xs ∧ canonJ (.jarr ys) ≠ canonJ (.jarr xs) := by
  have hx := swap_decomp xs i j hij hj hi
  have hAlen : (xs.take i).length = i := by
    rw [List.length_take]
    omega
  refine ⟨xs.take i ++ xs.get ⟨j, hj⟩ ::
      ((xs.drop (i + 1)).take (j - (i + 1)) ++ xs.get ⟨i, hi⟩ :: xs.drop (j + 1)), ?_, ?_⟩
  · have hperm := swap_perm (xs.take i) ((xs.drop (i + 1)).take (j - (i + 1)))
      (xs.drop (j + 1)) (xs.get ⟨i, hi⟩) (xs.get ⟨j, hj⟩)
    rw [← hx] at hperm
    exact hperm
  · intro hceq
    simp only [canonJ] at hceq
    have hlists := indexedFields_inj _ 0 _ (JValue.jobj.inj hceq)
    rw [canonJList_eq_map, canonJList_eq_map] at hlists
    have hbound : i < (xs.take i ++ xs.get ⟨j, hj⟩ ::
        ((xs.drop (i + 1)).take (j - (i + 1)) ++ xs.get ⟨i, hi⟩ :: xs.drop (j + 1))).length := by
      simp only [List.length_append, List.length_cons, hAlen]
      omega
    have hstep := map_canonJ_get_eq _ _ hlists i hbound hi
    have hyi : (xs.take i ++ xs.get ⟨j, hj⟩ ::
        ((xs.drop (i + 1)).take (j - (i + 1)) ++ xs.get ⟨i, hi⟩ :: xs.drop (j + 1))).get
          ⟨i, hbound⟩ = xs.get ⟨j, hj⟩ := by
      rw [List.get_eq_getElem,
        List.getElem_append_right (show (xs.take i).length ≤ i from by omega)]
      simp [hAlen]
    rw [hyi] at hstep
    exact hne hstep.symm

/-- C7 (amended): for an array-valued parameter holding two elements whose
*canonical* (replacer-converted) forms differ, element order is
significant: every reordering whose canonical form differs from the
original's changes the canonical string and, for a collision-free hash, the
channel name; and such a reordering exists (swapping the two elements).
The canonical-form proviso — rather than plain distinctness of the
elements — is forced by the replacer's missing `Array.isArray` guard: the
conversion identifies an array with its index-keyed plain object (see
`c7_counterexample`), but positionality itself survives it, because the
index keys record the element positions. -/
theorem c7_array_order_changes_channel
    (hash : String → String) (hinj : Function.Injective hash)
    (q : String) (xs : List JValue) (i j : Nat)
    (hi : i < xs.length) (hj : j < xs.length)
    (hne : canonJ (xs.get ⟨i, hi⟩) ≠ canonJ (xs.get ⟨j, hj⟩)) :
    (∀ ys, ys.Perm xs → canonJ (.jarr ys) ≠ canonJ (.jarr xs) →
      stableStringify (some (.jarr ys)) ≠ stableStringify (some (.jarr xs)) ∧
      getRpcChannelName hash q (some (.jarr ys))
        ≠ getRpcChannelName hash q (some (.jarr xs))) ∧
    (∃ ys, ys.Perm xs ∧
      stableStringify (some (.jarr ys)) ≠ stableStringify (some (.jarr xs)) ∧
      getRpcChannelName hash q (some (.jarr ys))
        ≠ getRpcChannelName hash q (some (.jarr xs))) := by
  have hforall : ∀ ys : List JValue, canonJ (.jarr ys) ≠ canonJ (.jarr xs) →
      stableStringify (some (.jarr ys)) ≠ stableStringify (some (.jarr xs)) ∧
      getRpcChannelName hash q (some (.jarr ys))
        ≠ getRpcChannelName hash q (some (.jarr xs)) := by
    intro ys hnd
    have hstr : stableStringify (some (.jarr ys)) ≠ stableStringify (some (.jarr xs)) := by
      intro hEq
      exact hnd (stringify_eq_canon_eq (by simp) (by simp) hEq)
    refine ⟨hstr, ?_⟩
    intro hEq
    exact hstr (channel_eq_imp_stringify_eq hinj hEq)
  constructor
  · exact fun ys _ hnd => hforall ys hnd
  · rcases Nat.lt_trichotomy i j with hlt | heqij | hgt
    · obtain ⟨ys, hperm, hnd⟩ := exists_swapped_perm xs i j hi hj hlt hne
      exact ⟨ys, hperm, (hforall ys hnd).1, (hforall ys hnd).2⟩
    · subst heqij
      exact absurd rfl hne
    · have hne2 : canonJ (xs.get ⟨j, hj⟩) ≠ canonJ (xs.get ⟨i, hi⟩) := Ne.symm hne
      obtain ⟨ys, hperm, hnd⟩ := exists_swapped_perm xs j i hj hi hgt hne2
      exact ⟨ys, hperm, (hforall ys hnd).1, (hforall ys hnd).2⟩

/-- Witness for the amended C7 at the two-element array of the numbers 1
and 2, whose canonical forms differ. -/
theorem c7_array_order_changes_channel_witness :
    ∃ ys, ys.Perm [JValue.jnum 1, JValue.jnum 2] ∧
      stableStringify (some (.jarr ys))
        ≠ stableStringify (some (.jarr [JValue.jnum 1, JValue.jnum 2])) ∧
      getRpcChannelName id "getPosts" (some (.jarr ys))
        ≠ getRpcChannelName id "getPosts" (some (.jarr [JValue.jnum 1, JValue.jnum 2])) :=
  (c7_array_order_changes_channel id (fun _ _ h => h) "getPosts"
    [JValue.jnum 1, JValue.jnum 2] 0 1 (by decide) (by decide)
    (show canonJ (JValue.jnum 1) ≠ canonJ (JValue.jnum 2) by
      intro h
      rw [canonJ, canonJ] at h
      exact absurd (JValue.jnum.inj h) (by decide))).2

/-- Counterexample to C7 as stated: the two-element array holding the array
of 1 and the object mapping "0" to 1.  The two elements are distinct values
(not deep-equal), and swapping them is a genuine reordering (the swapped
array is not deep-equal to the original); yet, because the replacer
converts the element array into exactly that index-keyed object, both
elements share one canonical form, and the swap leaves the canonical string
and the channel name unchanged. -/
theorem c7_counterexample :
    ([JValue.jobj [("0", JValue.jnum 1)], JValue.jarr [JValue.jnum 1]]).Perm
        [JValue.jarr [JValue.jnum 1], JValue.jobj [("0", JValue.jnum 1)]] ∧
    ¬ DeepEq (JValue.jarr [JValue.jnum 1]) (JValue.jobj [("0", JValue.jnum 1)]) ∧
    ¬ DeepEq
        (.jarr [JValue.jarr [JValue.jnum 1], JValue.jobj [("0", JValue.jnum 1)]])
        (.jarr [JValue.jobj [("0", JValue.jnum 1)], JValue.jarr [JValue.jnum 1]]) ∧
    stableStringify
        (some (.jarr [JValue.jarr [JValue.jnum 1], JValue.jobj [("0", JValue.jnum 1)]]))
      = stableStringify
        (some (.jarr [JValue.jobj [("0", JValue.jnum 1)], JValue.jarr [JValue.jnum 1]])) ∧
    getRpcChannelName id "getPosts"
        (some (.jarr [JValue.jarr [JValue.jnum 1], JValue.jobj [("0", JValue.jnum 1)]]))
      = getRpcChannelName id "getPosts"
        (some (.jarr [JValue.jobj [("0", JValue.jnum 1)], JValue.jarr [JValue.jnum 1]])) := by
  have hc : canonJ (.jarr [JValue.jarr [JValue.jnum 1], JValue.jobj [("0", JValue.jnum 1)]])
      = canonJ (.jarr [JValue.jobj [("0", JValue.jnum 1)], JValue.jarr [JValue.jnum 1]]) := by
    simp [canonJ, canonJList, canonJFields, indexedFields, indexKey, natChars,
      List.mergeSort]
  have hs : stableStringify
        (some (.jarr [JValue.jarr [JValue.jnum 1], JValue.jobj [("0", JValue.jnum 1)]]))
      = stableStringify
        (some (.jarr [JValue.jobj [("0", JValue.jnum 1)], JValue.jarr [JValue.jnum 1]])) := by
    simp only [stableStringify]
    rw [hc]
  refine ⟨List.Perm.swap _ _ _, ?_, ?_, hs, ?_⟩
  · intro h
    cases h
  · intro h
    cases h with
    | arr hl =>
      cases hl with
      | cons h1 _ => cases h1
  · simp only [getRpcChannelName, nullishCoalesce]
    rw [hs]


/-! ## The LiveRPC engine

Shallow embedding of the `LiveRPC` class.  Asynchronous functions that may
reject are modelled as functions into `Except RPCErr`; the external calls an
execution performs (handler invocations, `socket.broadcast`,
`socket.batchBroadcast`) are recorded in a trace of `Event`s, in the order
the sequentialized execution reaches them. -/

/-- The error object zod's `safeParse` returns on failure (only its
`message` is consumed; `message` may itself be absent, hence the inner
`Option` feeding the `?? 'Invalid params'` fallback). -/
structure ZodError where
  message : Option String

/-- The `{success, data, error}` record returned by a schema's `safeParse`
(`data` may be `undefined`). -/
structure SafeParseResult where
  success : Bool
  data : Option JValue
  error : Option ZodError

/-- An opaque parameter-validation capability. -/
structure Schema where
  safeParse : Option JValue → SafeParseResult

/-- A failure: an `HTTPException(status, {message})`, or an arbitrary thrown
value (modelled by its message). -/
inductive RPCErr where
  | http (status : Nat) (message : String)
  | thrown (message : String)
deriving DecidableEq

/-- `error.message` of a caught error. -/
def RPCErr.msg : RPCErr → String
  | .http _ m => m
  | .thrown m => m

/-- A query definition: schema, handler, optional authorization predicate. -/
structure QueryDefL (Ctx : Type) where
  params : Schema
  query : Option JValue → Ctx → Except RPCErr (Option JValue)
  authorization : Option (Option JValue → Ctx → Except RPCErr Bool)

/-- An invalidation-map entry: computes the target query's params (a single
value, `undefined`, or an array of values) from the mutation's parsed params
and its result; async and fallible. -/
def InvFn := Option JValue → Option JValue → Except RPCErr (Option JValue)

/-- A mutation definition: schema, handler, optional authorization, optional
invalidation map (each entry itself optional, as in
`invalidateQueries?: { [K]?: fn }`). -/
structure MutationDefL (Ctx : Type) where
  params : Schema
  mutation : Option JValue → Ctx → Except RPCErr (Option JValue)
  authorization : Option (Option JValue → Ctx → Except RPCErr Bool)
  invalidateQueries : Option (List (String × Option InvFn))

/-- The built configuration: named queries and mutations (`Object.entries`
order). -/
structure RPCConfigL (Ctx : Type) where
  queries : List (String × QueryDefL Ctx)
  mutations : List (String × MutationDefL Ctx)

/-- One item of a `batchBroadcast` call. -/
structure BItem where
  channel : String
  name : String
  data : Option JValue

/-- The transport capability; outcomes of its calls are part of the socket
value, so theorems can quantify over transport success and failure. -/
structure Socket where
  broadcast : String → String → Option JValue → Except RPCErr Unit
  batchBroadcast : List BItem → Except RPCErr Unit
  maxBatchSize : Option Nat

/-- The constructor's defaulting `if (!options.socket.maxBatchSize)
options.socket.maxBatchSize = 10` (zero is falsy). -/
def effectiveMaxBatchSize (s : Socket) : Nat :=
  match s.maxBatchSize with
  | none => 10
  | some 0 => 10
  | some n => n

/-- Externally observable calls of one execution. -/
inductive Event where
  | queryHandler (name : String) (params : Option JValue)
  | mutationHandler (name : String) (params : Option JValue)
  | broadcastCall (channel eventName : String) (data : Option JValue)
  | batchBroadcastCall (items : List BItem)

/-- Operation kind selected by the request path. -/
inductive OpKind where
  | query
  | mutation
deriving DecidableEq

def opKindStr : OpKind → String
  | .query => "query"
  | .mutation => "mutation"

def lookupSchema {Ctx : Type} (cfg : RPCConfigL Ctx) : OpKind → String → Option Schema
  | .query, key => (cfg.queries.lookup key).map QueryDefL.params
  | .mutation, key => (cfg.mutations.lookup key).map MutationDefL.params

/-- `validateParams(type, key, params)`: look the definition up, run
`safeParse`, throw 400 on unknown key or invalid params (`error.message ??
'Invalid params'`; reading `.message` off an absent error object is itself a
raw `TypeError`), return the parsed data. -/
def validateParams {Ctx : Type} (cfg : RPCConfigL Ctx) (type : OpKind) (key : String)
    (params : Option JValue) : Except RPCErr (Option JValue) :=
  match lookupSchema cfg type key with
  | none => .error (.http 400 ("Unknown " ++ opKindStr type ++ ": " ++ key))
  | some schema =>
    let r := schema.safeParse params
    if !r.success || r.error.isSome then
      .error (match r.error with
        | some e => .http 400 (e.message.getD "Invalid params")
        | none => .thrown "TypeError: cannot read properties of undefined")
    else .ok r.data

/-- The handler step shared by the query executors. -/
def runQueryHandler {Ctx : Type} (name : String) (d : QueryDefL Ctx)
    (parsed : Option JValue) (request : Ctx) :
    Except RPCErr (Option JValue) × List Event :=
  match d.query parsed request with
  | .error e => (.error e, [.queryHandler name parsed])
  | .ok r => (.ok r, [.queryHandler name parsed])

/-- The per-query function `fn(params, request, withAuth = true)`:
validation (re-wrapped as 400), authorization (only a *rejected* promise
yields 401 — the boolean the predicate resolves with is discarded), then the
handler, whose failure is re-thrown as-is. -/
def queryFn {Ctx : Type} (cfg : RPCConfigL Ctx) (name : String) (d : QueryDefL Ctx)
    (params : Option JValue) (request : Ctx) (withAuth : Bool) :
    Except RPCErr (Option JValue) × List Event :=
  match validateParams cfg .query name params with
  | .error e => (.error (.http 400 e.msg), [])
  | .ok parsed =>
    match (if withAuth then d.authorization else none) with
    | some auth =>
      match auth parsed request with
      | .error _ => (.error (.http 401 "Unauthorized"), [])
      | .ok _ => runQueryHandler name d parsed request
    | none => runQueryHandler name d parsed request

/-- `fn.invalidate(params, request)`: validate, recompute, derive the
channel from the *parsed* params, broadcast a single `update`, return the
recomputed result (500 if the broadcast rejects). -/
def queryInvalidate {Ctx : Type} (hash : String → String) (cfg : RPCConfigL Ctx)
    (socket : Socket) (name : String) (d : QueryDefL Ctx)
    (params : Option JValue) (request : Ctx) :
    Except RPCErr (Option JValue) × List Event :=
  match validateParams cfg .query name params with
  | .error e => (.error (.http 400 e.msg), [])
  | .ok parsed =>
    match d.query parsed request with
    | .error e => (.error e, [.queryHandler name parsed])
    | .ok result =>
      let channel := getRpcChannelName hash name parsed
      match socket.broadcast channel "update" result with
      | .error _ =>
        (.error (.http 500 "Failed to broadcast update"),
          [.queryHandler name parsed, .broadcastCall channel "update" result])
      | .ok _ =>
        (.ok result,
          [.queryHandler name parsed, .broadcastCall channel "update" result])

/-- The `{result, channel}` record `fn.batchInvalidate` resolves with. -/
structure BatchInvalidateResult where
  result : Option JValue
  channel : String

/-- `fn.batchInvalidate(params, request)`: same validate/recompute path, and
— exactly as the reference code does, against its own `INFO: just do not
broadcast` comment — it *also* issues the individual broadcast before
returning `{result, channel}`. -/
def batchInvalidate {Ctx : Type} (hash : String → String) (cfg : RPCConfigL Ctx)
    (socket : Socket) (name : String) (d : QueryDefL Ctx)
    (params : Option JValue) (request : Ctx) :
    Except RPCErr BatchInvalidateResult × List Event :=
  match validateParams cfg .query name params with
  | .error e => (.error (.http 400 e.msg), [])
  | .ok parsed =>
    match d.query parsed request with
    | .error e => (.error e, [.queryHandler name parsed])
    | .ok result =>
      let channel := getRpcChannelName hash name parsed
      match socket.broadcast channel "update" result with
      | .error _ =>
        (.error (.http 500 "Failed to broadcast update"),
          [.queryHandler name parsed, .broadcastCall channel "update" result])
      | .ok _ =>
        (.ok ⟨result, channel⟩,
          [.queryHandler name parsed, .broadcastCall channel "update" result])

/-- One per-element outcome record `{success, channel, result}` collected in
the array branch of the fan-out. -/
structure BatchOutcome where
  success : Bool
  channel : Option String
  result : Option JValue

/-- The accumulator step of the fan-out's grouping `reduce`: if the
accumulator is empty push an empty group first, then push the item onto the
*last* group.  (Note: no group is ever closed, whatever `maxBatchSize`
says.) -/
def appendToLast {α : Type} : List (List α) → α → List (List α)
  | [], b => [[b]]
  | [last], b => [last ++ [b]]
  | c :: rest, b => c :: appendToLast rest b

/-- The grouping `reduce` over the successful outcomes. -/
def chunkBroadcasts (items : List BItem) : List (List BItem) :=
  items.foldl appendToLast []

/-- The fan-out work for one entry of the invalidation map: compute the
target params; an array fans out through `batchInvalidate` per element,
filters the successes, groups them with the `reduce`, and dispatches one
`batchBroadcast` per group; any other value goes through a single
`invalidate`.  All failures stay inside the detached task. -/
def fanOutTarget {Ctx : Type} (hash : String → String) (cfg : RPCConfigL Ctx)
    (socket : Socket) (queryName : String) (invFn : Option InvFn)
    (parsed result : Option JValue) (request : Ctx) : List Event :=
  match invFn with
  | none => []
  | some f =>
    match f parsed result with
    | .error _ => []
    | .ok queryParams =>
      match queryParams with
      | some (.jarr qps) =>
        match cfg.queries.lookup queryName with
        | none => []
        | some d =>
          let pairs := qps.map (fun qp =>
            batchInvalidate hash cfg socket queryName d (some qp) request)
          let events1 := (pairs.map Prod.snd).flatten
          let outcomes : List BatchOutcome := pairs.map (fun p =>
            match p.1 with
            | .error _ => ⟨false, none, some .jnull⟩
            | .ok r => ⟨true, some r.channel, r.result⟩)
          let toBroadcast := chunkBroadcasts
            ((outcomes.filter (fun b => b.success && b.channel.isSome)).map
              (fun b => ⟨b.channel.getD "", "update", b.result⟩))
          events1 ++ toBroadcast.map (fun batch => Event.batchBroadcastCall batch)
      | v =>
        match cfg.queries.lookup queryName with
        | none => []
        | some d => (queryInvalidate hash cfg socket queryName d v request).2

/-- The whole detached fan-out over the invalidation map. -/
def fanOut {Ctx : Type} (hash : String → String) (cfg : RPCConfigL Ctx)
    (socket : Socket) (invalidateQueries : Option (List (String × Option InvFn)))
    (parsed result : Option JValue) (request : Ctx) : List Event :=
  match invalidateQueries with
  | none => []
  | some entries =>
    (entries.map (fun e => fanOutTarget hash cfg socket e.1 e.2 parsed result request)).flatten

/-- The mutation handler step followed by the detached fan-out; the value
returned to the caller is fixed before the fan-out runs and is never
affected by it. -/
def runMutationHandler {Ctx : Type} (hash : String → String) (cfg : RPCConfigL Ctx)
    (socket : Socket) (name : String) (d : MutationDefL Ctx)
    (parsed : Option JValue) (request : Ctx) :
    Except RPCErr (Option JValue) × List Event :=
  match d.mutation parsed request with
  | .error e => (.error e, [.mutationHandler name parsed])
  | .ok result =>
    (.ok result,
      .mutationHandler name parsed ::
        fanOut hash cfg socket d.invalidateQueries parsed result request)

/-- The per-mutation function `fn(params, request, withAuth = true)`. -/
def mutationFn {Ctx : Type} (hash : String → String) (cfg : RPCConfigL Ctx)
    (socket : Socket) (name : String) (d : MutationDefL Ctx)
    (params : Option JValue) (request : Ctx) (withAuth : Bool) :
    Except RPCErr (Option JValue) × List Event :=
  match validateParams cfg .mutation name params with
  | .error e => (.error (.http 400 e.msg), [])
  | .ok parsed =>
    match (if withAuth then d.authorization else none) with
    | some auth =>
      match auth parsed request with
      | .error _ => (.error (.http 401 "Unauthorized"), [])
      | .ok _ => runMutationHandler hash cfg socket name d parsed request
    | none => runMutationHandler hash cfg socket name d parsed request

/-- The wire response bodies `c.json(...)` produces. -/
inductive RespBody where
  | queryResp (data : Option JValue) (channel : String) (error : Option String)
  | mutationResp (success : Bool) (data : Option JValue) (error : Option String)
  | errorResp (error : String)

/-- The parsed request body `{key, params}`. -/
structure RequestBody where
  key : String
  params : Option JValue

/-- `pathname.endsWith(suffix)`, at the character-list level. -/
def strEndsWith (s post : String) : Bool := post.data.isSuffixOf s.data

/-- `result ?? undefined` of the mutation response. -/
def nullToUndefined : Option JValue → Option JValue
  | some .jnull => none
  | r => r

/-- `handleRequest(c)`: decide the operation from the path suffix — any
other suffix returns `undefined` (no response; the trailing
`{error: 'Request not valid'}, 400` line is unreachable) — look the function
up (400 on unknown key), run it, and wrap the result; a query response's
`channel` is computed from the *raw* request params. -/
def handleRequest {Ctx : Type} (hash : String → String) (cfg : RPCConfigL Ctx)
    (socket : Socket) (pathname : String) (body : RequestBody) (c : Ctx) :
    Except RPCErr (Option (RespBody × Nat)) × List Event :=
  let isQuery := strEndsWith pathname "/rpc/query"
  let isMutation := strEndsWith pathname "/rpc/mutation"
  if !isQuery && !isMutation then (.ok none, [])
  else if isQuery then
    match cfg.queries.lookup body.key with
    | none => (.error (.http 400 ("Unknown query type: " ++ body.key)), [])
    | some d =>
      match queryFn cfg body.key d body.params c true with
      | (.error e, evs) => (.error e, evs)
      | (.ok result, evs) =>
        let channel := getRpcChannelName hash body.key body.params
        (.ok (some (.queryResp result channel none, 200)), evs)
  else if isMutation then
    match cfg.mutations.lookup body.key with
    | none => (.error (.http 400 ("Unknown mutation: " ++ body.key)), [])
    | some d =>
      match mutationFn hash cfg socket body.key d body.params c true with
      | (.error e, evs) => (.error e, evs)
      | (.ok result, evs) =>
        (.ok (some (.mutationResp true (nullToUndefined result) none, 200)), evs)
  else (.ok (some (.errorResp "Request not valid", 400)), [])

/-! ## Concrete fixtures for evaluating the engine -/

/-- A schema that accepts any input and returns it unchanged. -/
def acceptAllSchema : Schema := ⟨fun p => ⟨true, p, none⟩⟩

/-- A query whose handler echoes its parsed params. -/
def echoQueryDef : QueryDefL Unit :=
  ⟨acceptAllSchema, fun p _ => .ok p, none⟩

/-- A transport whose calls all succeed, with the claimed `maxBatchSize` of
10. -/
def okSocket : Socket :=
  ⟨fun _ _ _ => .ok (), fun _ => .ok (), some 10⟩

/-- Sizes of the `batchBroadcast` calls appearing in a trace, in order. -/
def batchSizes (evs : List Event) : List Nat :=
  evs.filterMap (fun e => match e with
    | .batchBroadcastCall items => some items.length
    | _ => none)

/-- Number of single-`broadcast` calls appearing in a trace. -/
def broadcastCount (evs : List Event) : Nat :=
  (evs.filter (fun e => match e with
    | .broadcastCall _ _ _ => true
    | _ => false)).length

/-- Number of handler invocations appearing in a trace. -/
def handlerCount (evs : List Event) : Nat :=
  (evs.filter (fun e => match e with
    | .queryHandler _ _ => true
    | .mutationHandler _ _ => true
    | _ => false)).length

/-- A mutation whose single invalidation target recomputes 25 parameter
sets (the numbers 0 through 24). -/
def mutationDef25 : MutationDefL Unit :=
  ⟨acceptAllSchema, fun _ _ => .ok (some (.jnum 0)), none,
    some [("q", some (fun _ _ =>
      .ok (some (.jarr ((List.range 25).map (fun n => JValue.jnum n))))))]⟩

/-- Registry with the echo query and the 25-target mutation. -/
def cfg25 : RPCConfigL Unit :=
  ⟨[("q", echoQueryDef)], [("m", mutationDef25)]⟩

/-- The grouping `reduce` puts every item into one single group: it opens a
group only when the accumulator is empty and never closes one, whatever
`maxBatchSize` says. -/
theorem chunkBroadcasts_never_splits :
    ∀ items : List BItem, items ≠ [] → chunkBroadcasts items = [items] := by
  have haux : ∀ (tail : List BItem) (acc : List BItem),
      List.foldl appendToLast [acc] tail = [acc ++ tail] := by
    intro tail
    induction tail with
    | nil => intro acc; simp
    | cons b tb ih =>
      intro acc
      simp only [List.foldl_cons, appendToLast, ih, List.append_assoc,
        List.singleton_append]
  intro items hne
  cases items with
  | nil => exact absurd rfl hne
  | cons b tb =>
    show List.foldl appendToLast (appendToLast [] b) tb = [b :: tb]
    rw [show appendToLast ([] : List (List BItem)) b = [[b]] from rfl, haux]
    simp

/-- C2 (code bug): with 25 successfully recomputed parameter sets and
`maxBatchSize = 10`, the fan-out issues ONE `batchBroadcast` carrying all 25
items — not 3 calls of sizes 10, 10, 5.  The grouping `reduce` never
consults `maxBatchSize` (which the engine only ever defaults, never reads),
so all successful elements land in a single group, contradicting the
comment above the `reduce` ("group by maxBatchSize ... each containing up
to maxBatchSize broadcasts"). -/
theorem c2_batch_chunking_ignores_max_batch_size :
    batchSizes (mutationFn id cfg25 okSocket "m" mutationDef25 (some (.jobj [])) () true).snd
      = [25] ∧
    effectiveMaxBatchSize okSocket = 10 ∧
    ([25] : List Nat) ≠ [10, 10, 5] :=
  ⟨rfl, rfl, by decide⟩

/-- A query definition whose authorization predicate resolves to `false`. -/
def authFalseQueryDef : QueryDefL Unit :=
  ⟨acceptAllSchema, fun _ _ => .ok (some (.jnum 42)), some (fun _ _ => .ok false)⟩

/-- A mutation definition whose authorization predicate resolves to
`false`. -/
def authFalseMutationDef : MutationDefL Unit :=
  ⟨acceptAllSchema, fun _ _ => .ok (some (.jnum 43)), some (fun _ _ => .ok false), none⟩

/-- Registry with the authorization-refusing definitions. -/
def cfgAuthFalse : RPCConfigL Unit :=
  ⟨[("q", authFalseQueryDef)], [("m", authFalseMutationDef)]⟩

/-- C3 (code bug): an authorization predicate that *returns* `false` is
ignored — only a predicate that throws produces the 401.  With
`withAuth = true` the handler runs anyway and its result is returned with
no error, for both queries and mutations. -/
theorem c3_auth_false_return_is_ignored :
    queryFn cfgAuthFalse "q" authFalseQueryDef (some (.jobj [])) () true
      = (.ok (some (.jnum 42)), [.queryHandler "q" (some (.jobj []))]) ∧
    mutationFn id cfgAuthFalse okSocket "m" authFalseMutationDef (some (.jobj [])) () true
      = (.ok (some (.jnum 43)), [.mutationHandler "m" (some (.jobj []))]) :=
  ⟨rfl, rfl⟩

/-- Registry with just the echo query. -/
def cfgEcho : RPCConfigL Unit :=
  ⟨[("q", echoQueryDef)], []⟩

/-- C4 (code bug): `batchInvalidate` *does* publish: a successful run
issues exactly one `socket.broadcast(channel, 'update', result)` call —
against its own `INFO: just do not broadcast` comment and the documented
contract of returning `{result, channel}` without publishing. -/
theorem c4_batch_invalidate_broadcasts :
    broadcastCount
      (batchInvalidate id cfgEcho okSocket "q" echoQueryDef (some (.jobj [])) ()).snd = 1 ∧
    batchInvalidate id cfgEcho okSocket "q" echoQueryDef (some (.jobj [])) ()
      = (.ok ⟨some (.jobj []), getRpcChannelName id "q" (some (.jobj []))⟩,
         [.queryHandler "q" (some (.jobj [])),
          .broadcastCall (getRpcChannelName id "q" (some (.jobj []))) "update"
            (some (.jobj []))]) :=
  ⟨rfl, rfl⟩

/-- C8 (code bug): a request whose path ends in neither `/rpc/query` nor
`/rpc/mutation` is answered with `undefined` — no executor runs, but no
error response is produced either; the `{error: 'Request not valid'}, 400`
line is unreachable. -/
theorem c8_unknown_suffix_returns_undefined :
    handleRequest id cfgEcho okSocket "/api/rpc/other" ⟨"q", none⟩ () = (.ok none, []) ∧
    handlerCount (handleRequest id cfgEcho okSocket "/api/rpc/other" ⟨"q", none⟩ ()).snd = 0 :=
  ⟨rfl, rfl⟩

/-! ## C5 and C6 -/

/-- C5: a mutation that validates, authorizes and whose handler succeeds
returns exactly the handler's result — for *every* transport and *every*
invalidation map, so no fan-out outcome (compute failure, recompute
failure, broadcast failure) can change the value handed back to the
caller. -/
theorem c5_mutation_returns_handler_result {Ctx : Type}
    (hash : String → String) (cfg : RPCConfigL Ctx) (socket : Socket)
    (name : String) (d : MutationDefL Ctx) (params parsed r : Option JValue)
    (request : Ctx) (withAuth : Bool)
    (hval : validateParams cfg .mutation name params = .ok parsed)
    (hauth : (if withAuth then d.authorization else none) = none ∨
      ∃ a b, (if withAuth then d.authorization else none) = some a ∧
        a parsed request = .ok b)
    (hhandler : d.mutation parsed request = .ok r) :
    (mutationFn hash cfg socket name d params request withAuth).fst = .ok r := by
  unfold mutationFn runMutationHandler
  rw [hval]
  rcases hauth with hnone | ⟨a, b, ha, hb⟩
  · simp only [hnone, hhandler]
  · simp only [ha, hb, hhandler]

/-- A transport whose every call fails. -/
def failSocket : Socket :=
  ⟨fun _ _ _ => .error (.thrown "socket down"),
   fun _ => .error (.thrown "socket down"), some 10⟩

/-- A mutation whose fan-out is doomed: one target recomputes an array (all
its broadcasts will fail), one target's compute function itself throws, and
one target names an unregistered query. -/
def doomedMutationDef : MutationDefL Unit :=
  ⟨acceptAllSchema, fun _ _ => .ok (some (.jnum 7)), none,
    some [("q", some (fun _ _ => .ok (some (.jarr [.jnum 1, .jnum 2])))),
          ("q", some (fun _ _ => .error (.thrown "compute failed"))),
          ("missing", some (fun _ _ => .ok none))]⟩

/-- Registry with the echo query and the doomed mutation. -/
def cfgDoomed : RPCConfigL Unit :=
  ⟨[("q", echoQueryDef)], [("m", doomedMutationDef)]⟩

/-- Witness for C5: even with a transport whose every call fails, a failing
compute function, and an unregistered target, the mutation still returns
its handler's result. -/
theorem c5_mutation_returns_handler_result_witness :
    (mutationFn id cfgDoomed failSocket "m" doomedMutationDef none () true).fst
      = .ok (some (.jnum 7)) :=
  c5_mutation_returns_handler_result id cfgDoomed failSocket "m" doomedMutationDef
    none none (some (.jnum 7)) () true rfl (Or.inl rfl) rfl

/-- C6: raw params the schema rejects (with an error message) make both the
query and the mutation executor fail with a 400 carrying the validator's
message, with an empty trace — in particular the handler is never
invoked. -/
theorem c6_invalid_params_rejected_before_handler {Ctx : Type}
    (hash : String → String) (cfg : RPCConfigL Ctx) (socket : Socket)
    (name : String) (params : Option JValue) (request : Ctx) (withAuth : Bool)
    (dta : Option JValue) (m : String) :
    (∀ dq : QueryDefL Ctx, cfg.queries.lookup name = some dq →
      dq.params.safeParse params = ⟨false, dta, some ⟨some m⟩⟩ →
      queryFn cfg name dq params request withAuth = (.error (.http 400 m), [])) ∧
    (∀ dm : MutationDefL Ctx, cfg.mutations.lookup name = some dm →
      dm.params.safeParse params = ⟨false, dta, some ⟨some m⟩⟩ →
      mutationFn hash cfg socket name dm params request withAuth
        = (.error (.http 400 m), [])) := by
  constructor
  · intro dq hlook hparse
    unfold queryFn validateParams lookupSchema
    simp only [hlook, Option.map_some, hparse]
    simp [hparse, RPCErr.msg]
  · intro dm hlook hparse
    unfold mutationFn validateParams lookupSchema
    simp only [hlook, Option.map_some, hparse]
    simp [hparse, RPCErr.msg]

/-- A schema rejecting every input with the message of a failed parse. -/
def rejectAllSchema : Schema :=
  ⟨fun _ => ⟨false, none, some ⟨some "Expected object, received number"⟩⟩⟩

/-- A query definition guarded by the rejecting schema. -/
def rejectQueryDef : QueryDefL Unit :=
  ⟨rejectAllSchema, fun _ _ => .ok (some (.jnum 1)), none⟩

/-- A mutation definition guarded by the rejecting schema. -/
def rejectMutationDef : MutationDefL Unit :=
  ⟨rejectAllSchema, fun _ _ => .ok (some (.jnum 2)), none, none⟩

/-- Registry with the rejecting definitions. -/
def cfgReject : RPCConfigL Unit :=
  ⟨[("getPost", rejectQueryDef)], [("createPost", rejectMutationDef)]⟩

/-- Witness for C6 at a malformed concrete input. -/
theorem c6_invalid_params_rejected_before_handler_witness :
    queryFn cfgReject "getPost" rejectQueryDef (some (.jnum 3)) () true
      = (.error (.http 400 "Expected object, received number"), []) ∧
    mutationFn id cfgReject okSocket "createPost" rejectMutationDef (some (.jnum 3)) () true
      = (.error (.http 400 "Expected object, received number"), []) :=
  ⟨(c6_invalid_params_rejected_before_handler id cfgReject okSocket "getPost"
      (some (.jnum 3)) () true none "Expected object, received number").1
      rejectQueryDef rfl rfl,
   (c6_invalid_params_rejected_before_handler id cfgReject okSocket "createPost"
      (some (.jnum 3)) () true none "Expected object, received number").2
      rejectMutationDef rfl rfl⟩

/-! ## C10: raw-params response channel vs parsed-params broadcast channel -/

/-- C10 (amended): `handleRequest` derives the subscription channel of a
query response from the *raw* body params, while `invalidate` and
`batchInvalidate` derive the broadcast channel from the *schema-parsed*
params; when `safeParse` returns the input value unchanged the returned
subscription channel and the broadcast channel coincide — but not only
then: a schema parsing `null` to the empty object also makes them coincide
(see `c10_counterexample`), since `getRpcChannelName` coalesces `null` to
the empty object. -/
theorem c10_channel_raw_vs_parsed {Ctx : Type}
    (hash : String → String) (cfg : RPCConfigL Ctx) (socket : Socket) :
    (∀ (pathname : String) (body : RequestBody) (c : Ctx) (d : QueryDefL Ctx)
        (result : Option JValue) (evs : List Event),
      strEndsWith pathname "/rpc/query" = true →
      cfg.queries.lookup body.key = some d →
      queryFn cfg body.key d body.params c true = (.ok result, evs) →
      handleRequest hash cfg socket pathname body c
        = (.ok (some (.queryResp result
            (getRpcChannelName hash body.key body.params) none, 200)), evs)) ∧
    (∀ (name : String) (d : QueryDefL Ctx) (params parsed res : Option JValue) (c : Ctx),
      validateParams cfg .query name params = .ok parsed →
      d.query parsed c = .ok res →
      (queryInvalidate hash cfg socket name d params c).snd
        = [.queryHandler name parsed,
           .broadcastCall (getRpcChannelName hash name parsed) "update" res]) ∧
    (∀ (name : String) (d : QueryDefL Ctx) (params parsed res : Option JValue) (c : Ctx),
      validateParams cfg .query name params = .ok parsed →
      d.query parsed c = .ok res →
      (batchInvalidate hash cfg socket name d params c).snd
        = [.queryHandler name parsed,
           .broadcastCall (getRpcChannelName hash name parsed) "update" res]) ∧
    (∀ (pathname : String) (body : RequestBody) (c : Ctx) (d : QueryDefL Ctx)
        (result res : Option JValue) (evs : List Event),
      strEndsWith pathname "/rpc/query" = true →
      cfg.queries.lookup body.key = some d →
      validateParams cfg .query body.key body.params = .ok body.params →
      queryFn cfg body.key d body.params c true = (.ok result, evs) →
      d.query body.params c = .ok res →
      ∃ channel,
        handleRequest hash cfg socket pathname body c
          = (.ok (some (.queryResp result channel none, 200)), evs) ∧
        (queryInvalidate hash cfg socket body.key d body.params c).snd
          = [.queryHandler body.key body.params,
             .broadcastCall channel "update" res] ∧
        (batchInvalidate hash cfg socket body.key d body.params c).snd
          = [.queryHandler body.key body.params,
             .broadcastCall channel "update" res]) := by
  refine ⟨?_, ?_, ?_, ?_⟩
  · intro pathname body c d result evs hq hd hrun
    unfold handleRequest
    simp only [hq, hd, hrun, Bool.not_true, Bool.false_and, if_false]
    simp
  · intro name d params parsed res c hval hq
    unfold queryInvalidate
    simp only [hval, hq]
    cases hb : socket.broadcast (getRpcChannelName hash name parsed) "update" res <;> simp
  · intro name d params parsed res c hval hq
    unfold batchInvalidate
    simp only [hval, hq]
    cases hb : socket.broadcast (getRpcChannelName hash name parsed) "update" res <;> simp
  · intro pathname body c d result res evs hq hd hval hrun hquery
    refine ⟨getRpcChannelName hash body.key body.params, ?_, ?_, ?_⟩
    · unfold handleRequest
      simp only [hq, hd, hrun, Bool.not_true, Bool.false_and, if_false]
      simp
    · unfold queryInvalidate
      simp only [hval, hquery]
      cases hb : socket.broadcast (getRpcChannelName hash body.key body.params)
        "update" res <;> simp
    · unfold batchInvalidate
      simp only [hval, hquery]
      cases hb : socket.broadcast (getRpcChannelName hash body.key body.params)
        "update" res <;> simp

/-- A schema that parses `null` (indeed anything) to the empty object. -/
def nullToEmptySchema : Schema := ⟨fun _ => ⟨true, some (.jobj []), none⟩⟩

/-- A query guarded by that schema, echoing its parsed params. -/
def nullToEmptyQueryDef : QueryDefL Unit :=
  ⟨nullToEmptySchema, fun p _ => .ok p, none⟩

/-- Registry holding it under the name `getPosts`. -/
def cfgNullToEmpty : RPCConfigL Unit :=
  ⟨[("getPosts", nullToEmptyQueryDef)], []⟩

/-- Counterexample for C10 as stated: with raw params `null` parsed to
`{}`, `safeParse` does *not* return the input unchanged, yet the channel in
the query response (from the raw `null`) and the broadcast channel (from
the parsed `{}`) coincide — so coincidence is not restricted to inputs the
schema leaves unchanged. -/
theorem c10_counterexample :
    (handleRequest id cfgNullToEmpty okSocket "/rpc/query"
        ⟨"getPosts", some .jnull⟩ ()).fst
      = .ok (some (.queryResp (some (.jobj []))
          (getRpcChannelName id "getPosts" (some .jnull)) none, 200)) ∧
    (queryInvalidate id cfgNullToEmpty okSocket "getPosts" nullToEmptyQueryDef
        (some .jnull) ()).snd
      = [.queryHandler "getPosts" (some (.jobj [])),
         .broadcastCall (getRpcChannelName id "getPosts" (some (.jobj []))) "update"
           (some (.jobj []))] ∧
    getRpcChannelName id "getPosts" (some .jnull)
      = getRpcChannelName id "getPosts" (some (.jobj [])) ∧
    (nullToEmptySchema.safeParse (some .jnull)).data ≠ some .jnull :=
  ⟨rfl, rfl, rfl, fun h => JValue.noConfusion (Option.some.inj h)⟩

/-- Witness for the amended C10 at concrete runs of the dispatcher and the
invalidators (a schema that leaves the params unchanged, so the returned
subscription channel and the broadcast channel coincide). -/
theorem c10_channel_raw_vs_parsed_witness :
    handleRequest id cfgEcho okSocket "/rpc/query" ⟨"q", some (.jnum 5)⟩ ()
      = (.ok (some (.queryResp (some (.jnum 5))
          (getRpcChannelName id "q" (some (.jnum 5))) none, 200)),
         [.queryHandler "q" (some (.jnum 5))]) ∧
    (queryInvalidate id cfgEcho okSocket "q" echoQueryDef (some (.jnum 5)) ()).snd
      = [.queryHandler "q" (some (.jnum 5)),
         .broadcastCall (getRpcChannelName id "q" (some (.jnum 5))) "update"
           (some (.jnum 5))] ∧
    (∃ channel,
      handleRequest id cfgEcho okSocket "/rpc/query" ⟨"q", some (.jnum 5)⟩ ()
        = (.ok (some (.queryResp (some (.jnum 5)) channel none, 200)),
           [.queryHandler "q" (some (.jnum 5))]) ∧
      (queryInvalidate id cfgEcho okSocket "q" echoQueryDef (some (.jnum 5)) ()).snd
        = [.queryHandler "q" (some (.jnum 5)),
           .broadcastCall channel "update" (some (.jnum 5))] ∧
      (batchInvalidate id cfgEcho okSocket "q" echoQueryDef (some (.jnum 5)) ()).snd
        = [.queryHandler "q" (some (.jnum 5)),
           .broadcastCall channel "update" (some (.jnum 5))]) :=
  ⟨(c10_channel_raw_vs_parsed id cfgEcho okSocket).1 "/rpc/query"
      ⟨"q", some (.jnum 5)⟩ () echoQueryDef (some (.jnum 5))
      [.queryHandler "q" (some (.jnum 5))] rfl rfl rfl,
   (c10_channel_raw_vs_parsed id cfgEcho okSocket).2.1 "q" echoQueryDef
      (some (.jnum 5)) (some (.jnum 5)) (some (.jnum 5)) () rfl rfl,
   (c10_channel_raw_vs_parsed id cfgEcho okSocket).2.2.2 "/rpc/query"
      ⟨"q", some (.jnum 5)⟩ () echoQueryDef (some (.jnum 5)) (some (.jnum 5))
      [.queryHandler "q" (some (.jnum 5))] rfl rfl rfl rfl rfl⟩
